import Mathlib

/-!
Verification of the js-agent step-execution core.

Shallow embedding of the js-agent repository's step execution and control
loop.  The repository source provides `NoopStep` (src/unnamed/part_000) and
the write-file tool action (src/packages/agent/src/tool/write-file/
WriteFileTool.ts).  The Step base class, Run, action dispatch, retry
wrapper and loop driver are declared by the spec but their code is not in
src/, so those definitions are modelled from the spec and marked as such.
-/

namespace JsAgent

/-- Step lifecycle status: `pending | running | succeeded | failed`
(spec section 4.1 and the `StepResult` union used by `NoopStep._execute`). -/
inductive Status where
  | pending
  | running
  | succeeded
  | failed
deriving DecidableEq, Repr

/-- A status is terminal when it is `succeeded` or `failed`. -/
def Status.isTerminal : Status → Bool
  | .succeeded => true
  | .failed => true
  | _ => false

/-- Rank of a status along the lifecycle order
`pending (0) → running (1) → terminal (2)`. -/
def Status.rank : Status → Nat
  | .pending => 0
  | .running => 1
  | .succeeded => 2
  | .failed => 2

/-- A JSON-like value: the raw inputs proposed by the model and the
structured outputs of actions. -/
inductive Json where
  | str (s : String)
  | num (n : Int)
  | bool (b : Bool)
  | null
  | arr (elems : List Json)
  | obj (fields : List (String × Json))

/-- First binding of a key in a JSON object's field list. -/
def jsonLookup (fields : List (String × Json)) (key : String) : Option Json :=
  (fields.find? (fun f => f.1 == key)).map (fun f => f.2)

/-- Classified step errors (spec section 7 error taxonomy; the `thrown`
variant is an exception caught by `Step.execute`). -/
inductive StepError where
  | unknownAction (id : String)
  | invalidInput (diag : String)
  | executionFailure (e : String)
  | thrown (e : String)
deriving DecidableEq, Repr

/-- Result of executing a step's action logic:
`{type: "succeeded", summary, output?}` or `{type: "failed", summary, error}`
(the `StepResult` union returned by `NoopStep._execute`). -/
inductive StepResult where
  | succeeded (summary : String) (output : Option Json)
  | failed (summary : String) (error : StepError)

/-- The terminal status a recorded result puts the step in. -/
def StepResult.status : StepResult → Status
  | .succeeded _ _ => .succeeded
  | .failed _ _ => .failed

/-- Outcome of invoking a step's action logic: either it returns a
`StepResult`, or it raises an exception (modelled as `exn`). -/
inductive ActionOutcome where
  | ok (r : StepResult)
  | exn (e : String)

/-! ## NoopStep (from src/unnamed/part_000) -/

/-- Fields of `NoopStep`: the `type` tag passed to `super`, the readonly
`summary`, and the private readonly `_isDoneStep` flag. -/
structure NoopStep where
  type : String
  summary : String
  isDoneStepFlag : Bool
deriving DecidableEq, Repr

/-- The `NoopStep` constructor: `type` defaults to `"noop"` and
`isDoneStep` defaults to `false` when the optional arguments are absent. -/
def NoopStep.construct (type : Option String) (summary : String)
    (isDoneStep : Option Bool) : NoopStep :=
  { type := type.getD "noop"
    summary := summary
    isDoneStepFlag := isDoneStep.getD false }

/-- The body of `NoopStep._execute`:
`return { type: "succeeded", summary: this.summary }`. -/
def NoopStep.executeBody (s : NoopStep) : StepResult :=
  StepResult.succeeded s.summary none

/-- The method `NoopStep.isDoneStep()`: `return this._isDoneStep`. -/
def NoopStep.isDoneStep (s : NoopStep) : Bool :=
  s.isDoneStepFlag

/-! ## write-file tool (from WriteFileTool.ts) -/

/-- The output type `WriteFileOutput = { content: string }`. -/
structure WriteFileOutput where
  content : String
deriving DecidableEq, Repr

/-- The default `formatResult` of the `writeFile` action:
`({ summary, output: { content } }) =>` a template string with a `## `
heading, a `### New file content` subheading and the content. -/
def writeFileFormatResult (summary : String) (output : WriteFileOutput) : String :=
  s!"## {summary}\n### New file content\n{output.content}"

/-! ## Step state machine and Run
(Modelled from the spec: the `Step` base class and `AgentRun` are imported
by `NoopStep` but their files are not in src/.) -/

/-- Modelled from the spec: a Step's record — `type` tag, lifecycle
`status`, and the recorded result (holding summary, optional output,
optional error). -/
structure StepRec where
  type : String
  status : Status
  result : Option StepResult

/-- A freshly constructed step: status `pending`, no result recorded. -/
def StepRec.fresh (type : String) : StepRec :=
  ⟨type, Status.pending, none⟩

/-- Modelled from the spec: the `pending → running` transition performed at
the start of `execute()`. -/
def StepRec.start (st : StepRec) : StepRec :=
  { st with status := Status.running }

/-- Modelled from the spec: the result captured from the action logic —
a returned result is recorded as is; a raised exception is caught and
recorded as a failed result carrying the exception as the error. -/
def ActionOutcome.toResult : ActionOutcome → StepResult
  | .ok r => r
  | .exn e => StepResult.failed "Step failed" (StepError.thrown e)

/-- Modelled from the spec: the `running → {succeeded, failed}` transition:
the result is recorded and the step enters the result's terminal status. -/
def StepRec.finish (st : StepRec) (a : ActionOutcome) : StepRec :=
  { st with status := a.toResult.status, result := some a.toResult }

/-- Modelled from the spec: `Step.execute()` — precondition status
`pending` (re-invoking on a non-pending step fails fast, modelled by the
`Except.error` branch); otherwise transition to running, invoke the action
logic, catch any exception, record the result exactly once. -/
def StepRec.execute (st : StepRec) (a : ActionOutcome) : Except String StepRec :=
  if st.status = Status.pending then Except.ok ((st.start).finish a)
  else Except.error "cannot execute step that is not pending"

/-- Modelled from the spec: one `RecordedCall` ledger entry — payload plus
`success` flag (token/cost fields abstracted into the payload). -/
structure RecordedCall where
  payload : String
  success : Bool
deriving DecidableEq, Repr

/-- Modelled from the spec: a Run — ordered step history and the
RecordedCall ledger. -/
structure RunState where
  steps : List StepRec
  recordedCalls : List RecordedCall

/-- The operations the loop performs on a Run: append a fresh step, start a
step, finish a step with the outcome of its action logic, append a recorded
call. -/
inductive RunOp where
  | appendStep (type : String)
  | startStep (i : Nat)
  | finishStep (i : Nat) (a : ActionOutcome)
  | recordCall (c : RecordedCall)

/-- Whether an operation is a `pending → running` transition of step `i`. -/
def RunOp.isStart (i : Nat) : RunOp → Bool
  | .startStep j => j == i
  | _ => false

/-- Whether an operation is a `running → terminal` transition of step `i`. -/
def RunOp.isFinish (i : Nat) : RunOp → Bool
  | .finishStep j _ => j == i
  | _ => false

/-- Modelled from the spec: apply one operation to a Run. Starting a step
that is not pending, or finishing one that is not running, is the fail-fast
error condition (`none`). -/
def applyOp (s : RunState) : RunOp → Option RunState
  | .appendStep t => some { s with steps := s.steps ++ [StepRec.fresh t] }
  | .startStep i =>
      match s.steps[i]? with
      | some st =>
          if st.status = Status.pending
          then some { s with steps := s.steps.set i st.start }
          else none
      | none => none
  | .finishStep i a =>
      match s.steps[i]? with
      | some st =>
          if st.status = Status.running
          then some { s with steps := s.steps.set i (st.finish a) }
          else none
      | none => none
  | .recordCall c => some { s with recordedCalls := s.recordedCalls ++ [c] }

/-- Apply a sequence of operations; `none` as soon as one fails. -/
def applyOps (s : RunState) : List RunOp → Option RunState
  | [] => some s
  | o :: rest => (applyOp s o).bind fun s1 => applyOps s1 rest

/-- Number of `pending → running` transitions of step `i` in a sequence. -/
def countStarts (ops : List RunOp) (i : Nat) : Nat :=
  ops.countP (RunOp.isStart i)

/-- Number of `running → terminal` transitions of step `i` in a sequence. -/
def countFinishes (ops : List RunOp) (i : Nat) : Nat :=
  ops.countP (RunOp.isFinish i)

/-! ## Action registry and dispatch
(The write-file input schema and defaults are from WriteFileTool.ts; the
registry dispatch itself is modelled from the spec.) -/

/-- The `inputSchema` of the `writeFile` action, from WriteFileTool.ts:
`zod.object({ filePath: zod.string(), content: zod.string() })` — the raw
value must be an object whose `filePath` and `content` fields are strings;
parsing strips the object to those two fields. -/
def writeFileInputSchema (raw : Json) : Except String Json :=
  match raw with
  | .obj fields =>
      match jsonLookup fields "filePath", jsonLookup fields "content" with
      | some (.str fp), some (.str c) =>
          Except.ok (Json.obj [("filePath", Json.str fp), ("content", Json.str c)])
      | some (.str _), _ => Except.error "invalid input: content must be a string"
      | _, _ => Except.error "invalid input: filePath must be a string"
  | _ => Except.error "invalid input: expected an object"

/-- Whether a raw value is an object with string `filePath` and `content`
fields — the shape the claim describes for valid write-file input. -/
def isWriteFileShape : Json → Bool
  | .obj fields =>
      (match jsonLookup fields "filePath" with
        | some (.str _) => true
        | _ => false)
      && (match jsonLookup fields "content" with
        | some (.str _) => true
        | _ => false)
  | _ => false

/-- Modelled from the spec: an Action descriptor as registered in a Run's
action set — id, model-facing description, input validator, input example,
executor and result formatter (values as JSON). -/
structure ActionDescriptor where
  id : String
  description : String
  inputSchema : Json → Except String Json
  inputExample : Json
  execute : Json → Except String (String × Json)
  formatResult : String → Json → String

/-- Extract the `content` field of a write-file output object. -/
def writeFileOutputContent (output : Json) : String :=
  match output with
  | .obj fields =>
      match jsonLookup fields "content" with
      | some (.str c) => c
      | _ => ""
  | _ => ""

/-- The `writeFile` action factory from WriteFileTool.ts with its defaults:
id `"write-file"`, description `"Write file content."`, the zod input
schema above, the caller-supplied `execute`, and the default
`formatResult`. -/
def writeFile (execute : Json → Except String (String × Json)) : ActionDescriptor :=
  { id := "write-file"
    description := "Write file content."
    inputSchema := writeFileInputSchema
    inputExample := Json.obj
      [("filePath", Json.str "\x7bfile path relative to the workspace folder\x7d"),
       ("content", Json.str "\x7bnew file content\x7d")]
    execute := execute
    formatResult := fun summary output =>
      writeFileFormatResult summary ⟨writeFileOutputContent output⟩ }

/-- Modelled from the spec: registry dispatch for a proposed
`(actionId, rawInput)` — unknown id yields a failed result classified
*unknown action*; schema failure yields a failed result classified
*invalid input* carrying the validator's diagnostic, without invoking
`execute`; an executor failure is caught as *execution failure*; on success
`formatResult` produces the recorded summary. -/
def dispatch (registry : List ActionDescriptor) (actionId : String)
    (rawInput : Json) : StepResult :=
  match registry.find? (fun a => a.id == actionId) with
  | none =>
      StepResult.failed ("Unknown action " ++ actionId)
        (StepError.unknownAction actionId)
  | some action =>
      match action.inputSchema rawInput with
      | Except.error diag =>
          StepResult.failed "Invalid action input" (StepError.invalidInput diag)
      | Except.ok input =>
          match action.execute input with
          | Except.error e =>
              StepResult.failed "Action execution failed"
                (StepError.executionFailure e)
          | Except.ok (summary, output) =>
              StepResult.succeeded (action.formatResult summary output) (some output)

/-- A concrete write-file executor used in instantiations: always fails. -/
def stubExecute : Json → Except String (String × Json) :=
  fun _ => Except.error "io error"

/-! ## Loop driver and controller (modelled from the spec) -/

/-- Modelled from the spec: a controller decision — continue, or stop with
a reason. -/
inductive Decision where
  | proceed
  | stop (reason : String)

/-- Modelled from the spec: the default controller — stop with reason
`"maxSteps"` once the number of recorded steps reaches the maximum. -/
def maxStepsController (maxSteps : Nat) (s : RunState) : Decision :=
  if maxSteps ≤ s.steps.length then Decision.stop "maxSteps" else Decision.proceed

/-- A step as produced by the step generator: its type tag, its
`isDoneStep()` flag, and the outcome its action logic will produce. -/
structure GenStep where
  type : String
  isDone : Bool
  outcome : ActionOutcome

/-- Execute one generated step: fresh, then `pending → running`, then
`running → terminal` with the outcome of its action logic. -/
def GenStep.executed (g : GenStep) : StepRec :=
  ((StepRec.fresh g.type).start).finish g.outcome

/-- Modelled from the spec: the loop driver. Each iteration executes the
next generated step and appends it to the run history; a successfully
completed step whose `isDoneStep()` is true terminates the run with reason
`"done"` without consulting the controller; otherwise the controller
decides; an exhausted generator stands for a fatal model-call failure
(reason `"error"`). -/
def runLoop (controller : RunState → Decision) :
    List GenStep → RunState → RunState × String
  | [], s => (s, "error")
  | g :: rest, s =>
      let s1 : RunState := { s with steps := s.steps ++ [g.executed] }
      if g.executed.status = Status.succeeded ∧ g.isDone = true then (s1, "done")
      else
        match controller s1 with
        | Decision.stop reason => (s1, reason)
        | Decision.proceed => runLoop controller rest s1

/-- A generated step wrapping a `NoopStep` constructed with
`isDoneStep = true`: the model's explicit "I am finished" signal. -/
def doneNoopGen : GenStep :=
  { type := (NoopStep.construct none "Task complete" (some true)).type
    isDone := (NoopStep.construct none "Task complete" (some true)).isDoneStep
    outcome := ActionOutcome.ok
      (NoopStep.construct none "Task complete" (some true)).executeBody }

/-! ## Retry wrapper with exponential backoff (modelled from the spec) -/

/-- Modelled from the spec: outcome of one model-call attempt — success, a
retryable (transient / rate-limit) failure, or a fatal failure. -/
inductive CallOutcome where
  | success (response : String)
  | retryable (e : String)
  | fatal (e : String)

/-- The RecordedCall ledger entry appended for one attempt. -/
def CallOutcome.record : CallOutcome → RecordedCall
  | .success r => ⟨r, true⟩
  | .retryable e => ⟨e, false⟩
  | .fatal e => ⟨e, false⟩

/-- Final outcome of the retry wrapper. -/
inductive RetryResult where
  | ok (response : String)
  | fatalError (e : String)
  | exhausted (e : String)

/-- Modelled from the spec: the backoff delay scheduled after the k-th
failed attempt (0-indexed), before attempt k+1: `base * 2^k` plus bounded
random jitter, capped at the configured maximum delay. -/
def backoffDelay (base maxDelay : Nat) (jitter : Nat) (k : Nat) : Nat :=
  min (base * 2 ^ k + jitter) maxDelay

/-- Modelled from the spec: the retry loop. `op k` is the outcome of
attempt `k`; every attempt appends exactly one ledger entry; retryable
failures are retried while attempts remain, scheduling a backoff delay
between attempts (collected in the returned list); fatal failures stop
immediately; exhausting attempts surfaces the last error. -/
def retryAux (base maxDelay : Nat) (jitter : Nat → Nat) (op : Nat → CallOutcome) :
    Nat → Nat → List RecordedCall → List Nat →
      List RecordedCall × List Nat × RetryResult
  | 0, _, ledger, delays => (ledger, delays, RetryResult.exhausted "no attempts")
  | remaining + 1, k, ledger, delays =>
      let ledger1 := ledger ++ [(op k).record]
      match op k with
      | CallOutcome.success r => (ledger1, delays, RetryResult.ok r)
      | CallOutcome.fatal e => (ledger1, delays, RetryResult.fatalError e)
      | CallOutcome.retryable e =>
          if remaining = 0 then (ledger1, delays, RetryResult.exhausted e)
          else
            retryAux base maxDelay jitter op remaining (k + 1) ledger1
              (delays ++ [backoffDelay base maxDelay (jitter k) k])

/-- Modelled from the spec: run the retry wrapper with a configured maximum
attempt count, starting at attempt 0 with an empty delay schedule. -/
def retryWithBackoff (base maxDelay : Nat) (jitter : Nat → Nat)
    (op : Nat → CallOutcome) (maxAttempts : Nat) (ledger : List RecordedCall) :
    List RecordedCall × List Nat × RetryResult :=
  retryAux base maxDelay jitter op maxAttempts 0 ledger []

end JsAgent

namespace JsAgent

theorem applyOps_cons (s : RunState) (o : RunOp) (rest : List RunOp) :
    applyOps s (o :: rest) = (applyOp s o).bind fun s1 => applyOps s1 rest :=
  rfl

theorem finish_status_terminal (st : StepRec) (a : ActionOutcome) :
    (st.finish a).status.isTerminal = true := by
  cases a with
  | ok r => cases r <;> rfl
  | exn e => rfl

theorem finish_status_rank (st : StepRec) (a : ActionOutcome) :
    (st.finish a).status.rank = 2 := by
  cases a with
  | ok r => cases r <;> rfl
  | exn e => rfl

theorem isTerminal_ne_pending {st : Status} (h : st.isTerminal = true) :
    st ≠ Status.pending := by
  cases st <;> simp_all [Status.isTerminal]

/-- Case analysis of one successful operation on the record of step `i`:
either the step is untouched (and the operation is neither a start nor a
finish of `i`), or it is a start of `i` from `pending`, or a finish of `i`
from `running`. -/
theorem applyOp_step_cases {s s1 : RunState} {o : RunOp} {i : Nat} {st : StepRec}
    (h : applyOp s o = some s1) (hst : s.steps[i]? = some st) :
    (s1.steps[i]? = some st ∧ RunOp.isStart i o = false ∧ RunOp.isFinish i o = false) ∨
    (o = RunOp.startStep i ∧ st.status = Status.pending ∧
      s1.steps[i]? = some st.start) ∨
    (∃ a, o = RunOp.finishStep i a ∧ st.status = Status.running ∧
      s1.steps[i]? = some (st.finish a)) := by
  have hlt : i < s.steps.length := (List.getElem?_eq_some.mp hst).1
  cases o with
  | appendStep t =>
      simp only [applyOp, Option.some.injEq] at h
      subst h
      exact Or.inl ⟨(List.getElem?_append_left hlt).trans hst, rfl, rfl⟩
  | startStep j =>
      simp only [applyOp] at h
      split at h
      · next stj hj =>
          split at h
          · next hp =>
              simp only [Option.some.injEq] at h
              subst h
              by_cases hij : j = i
              · subst hij
                rw [hst] at hj
                injection hj with hj
                subst hj
                exact Or.inr (Or.inl ⟨rfl, hp,
                  by simpa using List.getElem?_set_eq_of_lt st.start hlt⟩)
              · refine Or.inl ⟨?_, ?_, rfl⟩
                · show (s.steps.set j stj.start)[i]? = some st
                  rw [List.getElem?_set_ne hij]
                  exact hst
                · simp [RunOp.isStart, hij]
          · exact absurd h (by simp)
      · exact absurd h (by simp)
  | finishStep j a =>
      simp only [applyOp] at h
      split at h
      · next stj hj =>
          split at h
          · next hr =>
              simp only [Option.some.injEq] at h
              subst h
              by_cases hij : j = i
              · subst hij
                rw [hst] at hj
                injection hj with hj
                subst hj
                exact Or.inr (Or.inr ⟨a, rfl, hr,
                  by simpa using List.getElem?_set_eq_of_lt (st.finish a) hlt⟩)
              · refine Or.inl ⟨?_, rfl, ?_⟩
                · show (s.steps.set j (stj.finish a))[i]? = some st
                  rw [List.getElem?_set_ne hij]
                  exact hst
                · simp [RunOp.isFinish, hij]
          · exact absurd h (by simp)
      · exact absurd h (by simp)
  | recordCall c =>
      simp only [applyOp, Option.some.injEq] at h
      subst h
      exact Or.inl ⟨hst, rfl, rfl⟩

/-- A step that has reached a terminal status is never mutated again by any
valid sequence of operations. -/
theorem applyOps_frozen {ops : List RunOp} {s s' : RunState} {i : Nat} {st : StepRec}
    (hterm : st.status.isTerminal = true)
    (h : applyOps s ops = some s') (hst : s.steps[i]? = some st) :
    s'.steps[i]? = some st := by
  induction ops generalizing s with
  | nil =>
      simp only [applyOps, Option.some.injEq] at h
      subst h
      exact hst
  | cons o rest ih =>
      rw [applyOps_cons] at h
      rcases Option.bind_eq_some.mp h with ⟨s1, h1, h2⟩
      rcases applyOp_step_cases h1 hst with ⟨hkeep, _, _⟩ | ⟨_, hp, _⟩ | ⟨a, _, hr, _⟩
      · exact ih h2 hkeep
      · rw [hp] at hterm
        exact absurd hterm (by decide)
      · rw [hr] at hterm
        exact absurd hterm (by decide)

/-- The step at index `i` still exists after a valid sequence of operations
and its status rank never decreases. -/
theorem applyOps_rank_mono {ops : List RunOp} {s s' : RunState} {i : Nat} {st : StepRec}
    (h : applyOps s ops = some s') (hst : s.steps[i]? = some st) :
    ∃ st', s'.steps[i]? = some st' ∧ st.status.rank ≤ st'.status.rank := by
  induction ops generalizing s st with
  | nil =>
      simp only [applyOps, Option.some.injEq] at h
      subst h
      exact ⟨st, hst, le_refl _⟩
  | cons o rest ih =>
      rw [applyOps_cons] at h
      rcases Option.bind_eq_some.mp h with ⟨s1, h1, h2⟩
      rcases applyOp_step_cases h1 hst with ⟨hkeep, _, _⟩ | ⟨_, hp, hset⟩ | ⟨a, _, hr, hset⟩
      · exact ih h2 hkeep
      · rcases ih h2 hset with ⟨st', hget, hle⟩
        refine ⟨st', hget, ?_⟩
        rw [hp]
        exact le_trans (Nat.zero_le _) hle
      · rcases ih h2 hset with ⟨st', hget, hle⟩
        refine ⟨st', hget, ?_⟩
        rw [hr]
        rw [finish_status_rank] at hle
        exact le_trans (by decide) hle

/-- Once a step has left `pending`, no further valid operation starts it. -/
theorem countStarts_zero {ops : List RunOp} {s s' : RunState} {i : Nat} {st : StepRec}
    (hnp : st.status ≠ Status.pending)
    (h : applyOps s ops = some s') (hst : s.steps[i]? = some st) :
    countStarts ops i = 0 := by
  induction ops generalizing s st with
  | nil => rfl
  | cons o rest ih =>
      rw [applyOps_cons] at h
      rcases Option.bind_eq_some.mp h with ⟨s1, h1, h2⟩
      rcases applyOp_step_cases h1 hst with ⟨hkeep, hns, _⟩ | ⟨_, hp, _⟩ | ⟨a, ho, _, hset⟩
      · simp only [countStarts, List.countP_cons, hns, if_false]
        exact ih hnp h2 hkeep
      · exact absurd hp hnp
      · subst ho
        simp only [countStarts, List.countP_cons, RunOp.isFinish, RunOp.isStart, if_false]
        have hnp1 : (st.finish a).status ≠ Status.pending :=
          isTerminal_ne_pending (finish_status_terminal st a)
        simpa [countStarts] using ih hnp1 h2 hset

/-- Once a step is terminal, no further valid operation finishes it. -/
theorem countFinishes_zero {ops : List RunOp} {s s' : RunState} {i : Nat} {st : StepRec}
    (hterm : st.status.isTerminal = true)
    (h : applyOps s ops = some s') (hst : s.steps[i]? = some st) :
    countFinishes ops i = 0 := by
  induction ops generalizing s st with
  | nil => rfl
  | cons o rest ih =>
      rw [applyOps_cons] at h
      rcases Option.bind_eq_some.mp h with ⟨s1, h1, h2⟩
      rcases applyOp_step_cases h1 hst with ⟨hkeep, _, hnf⟩ | ⟨_, hp, _⟩ | ⟨a, _, hr, _⟩
      · simp only [countFinishes, List.countP_cons, hnf, if_false]
        exact ih hterm h2 hkeep
      · rw [hp] at hterm
        exact absurd hterm (by decide)
      · rw [hr] at hterm
        exact absurd hterm (by decide)

/-- A pending step is started at most once along any valid sequence. -/
theorem countStarts_le_one {ops : List RunOp} {s s' : RunState} {i : Nat} {st : StepRec}
    (hp : st.status = Status.pending)
    (h : applyOps s ops = some s') (hst : s.steps[i]? = some st) :
    countStarts ops i ≤ 1 := by
  induction ops generalizing s st with
  | nil => exact Nat.zero_le 1
  | cons o rest ih =>
      rw [applyOps_cons] at h
      rcases Option.bind_eq_some.mp h with ⟨s1, h1, h2⟩
      rcases applyOp_step_cases h1 hst with ⟨hkeep, hns, _⟩ | ⟨ho, _, hset⟩ | ⟨a, _, hr, _⟩
      · simp only [countStarts, List.countP_cons, hns, if_false]
        exact ih hp h2 hkeep
      · subst ho
        have hs1 : (StepRec.start st).status ≠ Status.pending := by
          simp [StepRec.start]
        have hz : countStarts rest i = 0 := countStarts_zero hs1 h2 hset
        have he : countStarts (RunOp.startStep i :: rest) i = countStarts rest i + 1 := by
          simp [countStarts, List.countP_cons, RunOp.isStart]
        omega
      · rw [hp] at hr
        exact absurd hr.symm (by decide)

/-- A running step is finished at most once along any valid sequence. -/
theorem countFinishes_le_one_of_running {ops : List RunOp} {s s' : RunState} {i : Nat}
    {st : StepRec} (hr : st.status = Status.running)
    (h : applyOps s ops = some s') (hst : s.steps[i]? = some st) :
    countFinishes ops i ≤ 1 := by
  induction ops generalizing s st with
  | nil => exact Nat.zero_le 1
  | cons o rest ih =>
      rw [applyOps_cons] at h
      rcases Option.bind_eq_some.mp h with ⟨s1, h1, h2⟩
      rcases applyOp_step_cases h1 hst with ⟨hkeep, _, hnf⟩ | ⟨_, hp, _⟩ | ⟨a, ho, _, hset⟩
      · simp only [countFinishes, List.countP_cons, hnf, if_false]
        exact ih hr h2 hkeep
      · rw [hr] at hp
        exact absurd hp (by decide)
      · subst ho
        have hz : countFinishes rest i = 0 :=
          countFinishes_zero (finish_status_terminal st a) h2 hset
        have he : countFinishes (RunOp.finishStep i a :: rest) i
            = countFinishes rest i + 1 := by
          simp [countFinishes, List.countP_cons, RunOp.isFinish]
        omega

/-- A pending step is finished at most once along any valid sequence. -/
theorem countFinishes_le_one_of_pending {ops : List RunOp} {s s' : RunState} {i : Nat}
    {st : StepRec} (hp : st.status = Status.pending)
    (h : applyOps s ops = some s') (hst : s.steps[i]? = some st) :
    countFinishes ops i ≤ 1 := by
  induction ops generalizing s st with
  | nil => exact Nat.zero_le 1
  | cons o rest ih =>
      rw [applyOps_cons] at h
      rcases Option.bind_eq_some.mp h with ⟨s1, h1, h2⟩
      rcases applyOp_step_cases h1 hst with ⟨hkeep, _, hnf⟩ | ⟨ho, _, hset⟩ | ⟨a, _, hr, _⟩
      · simp only [countFinishes, List.countP_cons, hnf, if_false]
        exact ih hp h2 hkeep
      · subst ho
        simp only [countFinishes, List.countP_cons, RunOp.isFinish, if_false]
        have hr1 : (StepRec.start st).status = Status.running := rfl
        exact countFinishes_le_one_of_running hr1 h2 hset
      · rw [hp] at hr
        exact absurd hr.symm (by decide)

/-- A running step that ends terminal is finished exactly once. -/
theorem countFinishes_eq_one_of_running {ops : List RunOp} {s s' : RunState} {i : Nat}
    {st st' : StepRec} (hr : st.status = Status.running)
    (h : applyOps s ops = some s') (hst : s.steps[i]? = some st)
    (hst' : s'.steps[i]? = some st') (hterm : st'.status.isTerminal = true) :
    countFinishes ops i = 1 := by
  induction ops generalizing s st with
  | nil =>
      simp only [applyOps, Option.some.injEq] at h
      subst h
      rw [hst] at hst'
      injection hst' with hst'
      rw [← hst', hr] at hterm
      exact absurd hterm (by decide)
  | cons o rest ih =>
      rw [applyOps_cons] at h
      rcases Option.bind_eq_some.mp h with ⟨s1, h1, h2⟩
      rcases applyOp_step_cases h1 hst with ⟨hkeep, _, hnf⟩ | ⟨_, hp, _⟩ | ⟨a, ho, _, hset⟩
      · simp only [countFinishes, List.countP_cons, hnf, if_false]
        exact ih hr h2 hkeep
      · rw [hr] at hp
        exact absurd hp (by decide)
      · subst ho
        have hz : countFinishes rest i = 0 :=
          countFinishes_zero (finish_status_terminal st a) h2 hset
        have he : countFinishes (RunOp.finishStep i a :: rest) i
            = countFinishes rest i + 1 := by
          simp [countFinishes, List.countP_cons, RunOp.isFinish]
        omega

/-- A pending step that ends terminal is started exactly once and finished
exactly once. -/
theorem counts_eq_one_of_pending {ops : List RunOp} {s s' : RunState} {i : Nat}
    {st st' : StepRec} (hp : st.status = Status.pending)
    (h : applyOps s ops = some s') (hst : s.steps[i]? = some st)
    (hst' : s'.steps[i]? = some st') (hterm : st'.status.isTerminal = true) :
    countStarts ops i = 1 ∧ countFinishes ops i = 1 := by
  induction ops generalizing s st with
  | nil =>
      simp only [applyOps, Option.some.injEq] at h
      subst h
      rw [hst] at hst'
      injection hst' with hst'
      rw [← hst', hp] at hterm
      exact absurd hterm (by decide)
  | cons o rest ih =>
      rw [applyOps_cons] at h
      rcases Option.bind_eq_some.mp h with ⟨s1, h1, h2⟩
      rcases applyOp_step_cases h1 hst with ⟨hkeep, hns, hnf⟩ | ⟨ho, _, hset⟩ | ⟨a, _, hr, _⟩
      · rcases ih hp h2 hkeep with ⟨hs1, hf1⟩
        constructor
        · simp only [countStarts, List.countP_cons, hns, if_false]
          exact hs1
        · simp only [countFinishes, List.countP_cons, hnf, if_false]
          exact hf1
      · subst ho
        have hs1 : (StepRec.start st).status ≠ Status.pending := by
          simp [StepRec.start]
        have hr1 : (StepRec.start st).status = Status.running := rfl
        have hsz : countStarts rest i = 0 := countStarts_zero hs1 h2 hset
        have hfo : countFinishes rest i = 1 :=
          countFinishes_eq_one_of_running hr1 h2 hset hst' hterm
        constructor
        · have he : countStarts (RunOp.startStep i :: rest) i = countStarts rest i + 1 := by
            simp [countStarts, List.countP_cons, RunOp.isStart]
          omega
        · simp only [countFinishes, List.countP_cons, RunOp.isFinish, if_false]
          exact hfo
      · rw [hp] at hr
        exact absurd hr.symm (by decide)

/-- A raw value that is not an object with string `filePath` and `content`
fields fails the write-file input schema. -/
theorem writeFileInputSchema_error_of_not_shape {raw : Json}
    (h : isWriteFileShape raw = false) :
    ∃ d, writeFileInputSchema raw = Except.error d := by
  cases raw with
  | str s => exact ⟨_, rfl⟩
  | num n => exact ⟨_, rfl⟩
  | bool b => exact ⟨_, rfl⟩
  | null => exact ⟨_, rfl⟩
  | arr es => exact ⟨_, rfl⟩
  | obj fields =>
      simp only [writeFileInputSchema]
      split
      · simp_all [isWriteFileShape]
      · exact ⟨_, rfl⟩
      · exact ⟨_, rfl⟩

/-- Characterization of the retry loop: it makes `n` attempts (`n ≥ 1`
whenever any attempt is allowed, `n ≤ fuel`), appends exactly one ledger
entry per attempt in order, schedules exactly the backoff delays between
consecutive attempts, and every attempt before the last failed
retryably. -/
theorem retryAux_spec (base maxDelay : Nat) (jitter : Nat → Nat)
    (op : Nat → CallOutcome) (fuel k : Nat) (ledger : List RecordedCall)
    (delays : List Nat) :
    ∃ n, n ≤ fuel ∧ (fuel ≠ 0 → n ≠ 0) ∧
      (retryAux base maxDelay jitter op fuel k ledger delays).1
        = ledger ++ (List.range' k n).map (fun j => (op j).record) ∧
      (retryAux base maxDelay jitter op fuel k ledger delays).2.1
        = delays ++ (List.range' k (n - 1)).map
            (fun j => backoffDelay base maxDelay (jitter j) j) ∧
      (∀ j, k ≤ j → j + 1 < k + n → ∃ e, op j = CallOutcome.retryable e) := by
  induction fuel generalizing k ledger delays with
  | zero =>
      refine ⟨0, Nat.le_refl 0, fun hf => absurd rfl hf,
        by simp [retryAux], by simp [retryAux], ?_⟩
      intro j hj hj2
      exact absurd hj2 (by omega)
  | succ remaining ih =>
      cases hop : op k with
      | success r =>
          refine ⟨1, by omega, fun _ => by omega, ?_, ?_, ?_⟩
          · simp [retryAux, hop, List.range'_one]
          · simp [retryAux, hop]
          · intro j hj hj2
            exact absurd hj2 (by omega)
      | fatal e =>
          refine ⟨1, by omega, fun _ => by omega, ?_, ?_, ?_⟩
          · simp [retryAux, hop, List.range'_one]
          · simp [retryAux, hop]
          · intro j hj hj2
            exact absurd hj2 (by omega)
      | retryable e =>
          by_cases hrem : remaining = 0
          · subst hrem
            refine ⟨1, by omega, fun _ => by omega, ?_, ?_, ?_⟩
            · simp [retryAux, hop, List.range'_one]
            · simp [retryAux, hop]
            · intro j hj hj2
              exact absurd hj2 (by omega)
          · obtain ⟨n', h1, h2, h3, h4, h5⟩ :=
              ih (k + 1) (ledger ++ [(op k).record])
                (delays ++ [backoffDelay base maxDelay (jitter k) k])
            have hn' : n' ≠ 0 := h2 hrem
            have hstep :
                retryAux base maxDelay jitter op (remaining + 1) k ledger delays
                  = retryAux base maxDelay jitter op remaining (k + 1)
                      (ledger ++ [(op k).record])
                      (delays ++ [backoffDelay base maxDelay (jitter k) k]) := by
              simp [retryAux, hop, hrem]
            refine ⟨n' + 1, by omega, fun _ => by omega, ?_, ?_, ?_⟩
            · rw [hstep, h3, List.range'_succ k n' 1]
              simp
            · rw [hstep, h4, (by omega : n' + 1 - 1 = (n' - 1) + 1),
                List.range'_succ k (n' - 1) 1]
              simp
            · intro j hjk hjlt
              rcases Nat.eq_or_lt_of_le hjk with hkj | hkj
              · exact ⟨e, hkj ▸ hop⟩
              · exact h5 j hkj (by omega)

end JsAgent

namespace JsAgent

/-- C8: the write-file action's default `formatResult` is a pure function of
the summary seed and the output: for every summary `s` and output
`{content := c}` it returns exactly
`"## " ++ s ++ "\n### New file content\n" ++ c`. -/
theorem writeFile_formatResult_exact (s c : String) :
    writeFileFormatResult s ⟨c⟩ = "## " ++ s ++ "\n### New file content\n" ++ c := by
  show "## " ++ toString s ++ "\n### New file content\n" ++ toString c ++ "" =
    "## " ++ s ++ "\n### New file content\n" ++ c
  simp [toString, String.append_empty]

/-- C9: executing a `NoopStep`'s action logic always yields a succeeded
result whose summary is the summary supplied at construction, with no
output; it can never produce a failed result. -/
theorem noopStep_execute_succeeds (s : NoopStep) :
    s.executeBody = StepResult.succeeded s.summary none ∧
    s.executeBody.status = Status.succeeded ∧
    ∀ sum e, s.executeBody ≠ StepResult.failed sum e := by
  refine ⟨rfl, rfl, ?_⟩
  intro sum e h
  simp [NoopStep.executeBody] at h

/-- C1: over every valid sequence of operations on a Run, a Step's status
transitions `pending → running` exactly once and `running → terminal`
exactly once (at most once in general, exactly once when the step ends
terminal), its status rank never decreases, and no field of a Step is
mutated after it reaches a terminal status. -/
theorem step_lifecycle_per_run (ops : List RunOp) (s s' : RunState)
    (h : applyOps s ops = some s') (i : Nat) (st : StepRec)
    (hst : s.steps[i]? = some st) :
    ∃ st', s'.steps[i]? = some st' ∧
      st.status.rank ≤ st'.status.rank ∧
      (st.status.isTerminal = true → st' = st) ∧
      (st.status = Status.pending →
        countStarts ops i ≤ 1 ∧ countFinishes ops i ≤ 1 ∧
        (st'.status.isTerminal = true →
          countStarts ops i = 1 ∧ countFinishes ops i = 1)) := by
  rcases applyOps_rank_mono h hst with ⟨st', hget, hle⟩
  refine ⟨st', hget, hle, ?_, ?_⟩
  · intro hterm
    have hfr := applyOps_frozen hterm h hst
    rw [hget] at hfr
    injection hfr
  · intro hp
    exact ⟨countStarts_le_one hp h hst, countFinishes_le_one_of_pending hp h hst,
      fun hterm => counts_eq_one_of_pending hp h hst hget hterm⟩

/-- Witness for C1: a run with one pending step, started then finished. -/
theorem step_lifecycle_per_run_witness :
    ∃ st', (RunState.mk [⟨"noop", Status.succeeded,
        some (StepResult.succeeded "ok" none)⟩] []).steps[0]? = some st' ∧
      (StepRec.fresh "noop").status.rank ≤ st'.status.rank ∧
      ((StepRec.fresh "noop").status.isTerminal = true → st' = StepRec.fresh "noop") ∧
      ((StepRec.fresh "noop").status = Status.pending →
        countStarts [RunOp.startStep 0,
          RunOp.finishStep 0 (ActionOutcome.ok (StepResult.succeeded "ok" none))] 0 ≤ 1 ∧
        countFinishes [RunOp.startStep 0,
          RunOp.finishStep 0 (ActionOutcome.ok (StepResult.succeeded "ok" none))] 0 ≤ 1 ∧
        (st'.status.isTerminal = true →
          countStarts [RunOp.startStep 0,
            RunOp.finishStep 0 (ActionOutcome.ok (StepResult.succeeded "ok" none))] 0 = 1 ∧
          countFinishes [RunOp.startStep 0,
            RunOp.finishStep 0 (ActionOutcome.ok (StepResult.succeeded "ok" none))] 0 = 1)) :=
  step_lifecycle_per_run
    [RunOp.startStep 0, RunOp.finishStep 0 (ActionOutcome.ok (StepResult.succeeded "ok" none))]
    (RunState.mk [StepRec.fresh "noop"] [])
    (RunState.mk [⟨"noop", Status.succeeded, some (StepResult.succeeded "ok" none)⟩] [])
    rfl 0 (StepRec.fresh "noop") rfl

/-- C2: on a pending step, `execute()` never propagates an exception of the
action logic: for every outcome (including a raised exception) it returns
normally, the resulting status is terminal, and exactly one result is
recorded — a raised exception is recorded as a failed result. -/
theorem execute_catches_and_records (st : StepRec) (a : ActionOutcome)
    (hp : st.status = Status.pending) :
    ∃ st', st.execute a = Except.ok st' ∧
      st'.status.isTerminal = true ∧
      st'.result = some a.toResult ∧
      ∀ e, a = ActionOutcome.exn e →
        st'.result = some (StepResult.failed "Step failed" (StepError.thrown e)) := by
  refine ⟨(st.start).finish a, ?_, finish_status_terminal _ _, rfl, ?_⟩
  · simp [StepRec.execute, hp]
  · intro e he
    subst he
    rfl

/-- Witness for C2: executing a fresh pending step whose action logic
raises an exception. -/
theorem execute_catches_and_records_witness :
    ∃ st', (StepRec.fresh "action").execute (ActionOutcome.exn "boom") = Except.ok st' ∧
      st'.status.isTerminal = true ∧
      st'.result = some (ActionOutcome.exn "boom").toResult ∧
      ∀ e, ActionOutcome.exn "boom" = ActionOutcome.exn e →
        st'.result = some (StepResult.failed "Step failed" (StepError.thrown e)) :=
  execute_catches_and_records (StepRec.fresh "action") (ActionOutcome.exn "boom") rfl

/-- C3: when the proposed action is found but the raw input fails its input
schema, dispatch yields a failed Step result classified *invalid input*
carrying the validator's diagnostic; in particular for the write-file
action every raw input that is not an object with string `filePath` and
`content` fields is rejected this way, and the action's `execute` is never
invoked: the dispatch result does not depend on it. -/
theorem dispatch_invalid_input (registry : List ActionDescriptor)
    (actionId : String) (rawInput : Json) (action : ActionDescriptor)
    (diag : String)
    (hfind : registry.find? (fun a => a.id == actionId) = some action)
    (hschema : action.inputSchema rawInput = Except.error diag) :
    dispatch registry actionId rawInput
      = StepResult.failed "Invalid action input" (StepError.invalidInput diag) ∧
    ∀ (ex1 ex2 : Json → Except String (String × Json)) (raw2 : Json),
      isWriteFileShape raw2 = false →
      ∃ d, writeFileInputSchema raw2 = Except.error d ∧
        dispatch [writeFile ex1] "write-file" raw2
          = StepResult.failed "Invalid action input" (StepError.invalidInput d) ∧
        dispatch [writeFile ex1] "write-file" raw2
          = dispatch [writeFile ex2] "write-file" raw2 := by
  constructor
  · simp only [dispatch, hfind, hschema]
  · intro ex1 ex2 raw2 hshape
    obtain ⟨d, hd⟩ := writeFileInputSchema_error_of_not_shape hshape
    have hone : ∀ ex : Json → Except String (String × Json),
        dispatch [writeFile ex] "write-file" raw2
          = StepResult.failed "Invalid action input" (StepError.invalidInput d) := by
      intro ex
      have hf : ([writeFile ex].find? (fun a => a.id == "write-file"))
          = some (writeFile ex) := rfl
      have hschema2 : (writeFile ex).inputSchema raw2 = Except.error d := hd
      simp only [dispatch, hf, hschema2]
    exact ⟨d, hd, hone ex1, (hone ex1).trans (hone ex2).symm⟩

/-- Witness for C3: dispatching the write-file action on an input with a
numeric `filePath`. -/
theorem dispatch_invalid_input_witness :
    dispatch [writeFile stubExecute] "write-file"
        (Json.obj [("filePath", Json.num 3)])
      = StepResult.failed "Invalid action input"
          (StepError.invalidInput "invalid input: filePath must be a string") :=
  (dispatch_invalid_input [writeFile stubExecute] "write-file"
    (Json.obj [("filePath", Json.num 3)]) (writeFile stubExecute)
    "invalid input: filePath must be a string" rfl rfl).1

/-- C4: a successfully completed step whose `isDoneStep()` is true
terminates the loop with reason `"done"` for every controller — even one
that would continue — and no further step is executed: the final history is
the previous history plus that single step. -/
theorem done_step_terminates (controller : RunState → Decision) (g : GenStep)
    (rest : List GenStep) (s : RunState) (hdone : g.isDone = true)
    (hsucc : g.executed.status = Status.succeeded) :
    runLoop controller (g :: rest) s
      = ({ s with steps := s.steps ++ [g.executed] }, "done") ∧
    (runLoop controller (g :: rest) s).2 = "done" ∧
    (runLoop controller (g :: rest) s).1.steps.length = s.steps.length + 1 := by
  have hmain : runLoop controller (g :: rest) s
      = ({ s with steps := s.steps ++ [g.executed] }, "done") := by
    simp only [runLoop]
    rw [if_pos ⟨hsucc, hdone⟩]
  exact ⟨hmain, by rw [hmain], by rw [hmain]; simp⟩

/-- Witness for C4: a done `NoopStep` stops the loop under a max-steps
controller that would otherwise continue, with a further step pending. -/
theorem done_step_terminates_witness :
    runLoop (maxStepsController 10) [doneNoopGen, doneNoopGen] (RunState.mk [] [])
      = (RunState.mk [doneNoopGen.executed] [], "done") ∧
    (runLoop (maxStepsController 10) [doneNoopGen, doneNoopGen]
        (RunState.mk [] [])).2 = "done" ∧
    (runLoop (maxStepsController 10) [doneNoopGen, doneNoopGen]
        (RunState.mk [] [])).1.steps.length = 0 + 1 :=
  done_step_terminates (maxStepsController 10) doneNoopGen [doneNoopGen]
    (RunState.mk [] []) rfl rfl

/-- C7: a proposed action id that is not registered yields a failed Step
result classified *unknown action* (dispatch is a total function — no
exception is raised), and the loop then continues: the failed step cannot
trigger done-step termination, so whenever the controller continues, the
loop proceeds to the next step. -/
theorem dispatch_unknown_action (registry : List ActionDescriptor)
    (actionId : String) (rawInput : Json)
    (hfind : registry.find? (fun a => a.id == actionId) = none) :
    dispatch registry actionId rawInput
      = StepResult.failed ("Unknown action " ++ actionId)
          (StepError.unknownAction actionId) ∧
    ∀ (controller : RunState → Decision) (g : GenStep) (rest : List GenStep)
      (s : RunState),
      g.outcome = ActionOutcome.ok (dispatch registry actionId rawInput) →
      controller { s with steps := s.steps ++ [g.executed] } = Decision.proceed →
      runLoop controller (g :: rest) s
        = runLoop controller rest { s with steps := s.steps ++ [g.executed] } := by
  have hdisp : dispatch registry actionId rawInput
      = StepResult.failed ("Unknown action " ++ actionId)
          (StepError.unknownAction actionId) := by
    simp only [dispatch, hfind]
  refine ⟨hdisp, ?_⟩
  intro controller g rest s hout hcont
  have hstatus : g.executed.status = Status.failed := by
    simp [GenStep.executed, StepRec.finish, hout, hdisp, ActionOutcome.toResult,
      StepResult.status]
  simp only [runLoop]
  rw [if_neg, hcont]
  intro hand
  rw [hstatus] at hand
  exact absurd hand.1 (by decide)

/-- Witness for C7: dispatching an unregistered action id on the empty
registry. -/
theorem dispatch_unknown_action_witness :
    dispatch [] "move-file" Json.null
      = StepResult.failed ("Unknown action " ++ "move-file")
          (StepError.unknownAction "move-file") :=
  (dispatch_unknown_action [] "move-file" Json.null rfl).1

/-- C5: in every run of the retry wrapper, the k-th scheduled backoff delay
(0-indexed over retries: the delay before attempt k+1) equals `base * 2^k`
perturbed by the bounded jitter and capped at the configured maximum delay;
it never exceeds the maximum, and lies within jitter distance of
`base * 2^k` whenever the cap is not hit; with zero jitter the delays
before the second and third attempts are `base` and `2 * base` whenever
those are below the cap. -/
theorem retry_delay_schedule (base maxDelay jitterBound : Nat)
    (jitter : Nat → Nat) (op : Nat → CallOutcome) (maxAttempts : Nat)
    (ledger : List RecordedCall) (hj : ∀ k, jitter k ≤ jitterBound) :
    (∀ k d,
      (retryWithBackoff base maxDelay jitter op maxAttempts ledger).2.1[k]? = some d →
      d = backoffDelay base maxDelay (jitter k) k ∧
      d ≤ maxDelay ∧
      (base * 2 ^ k + jitterBound ≤ maxDelay →
        base * 2 ^ k ≤ d ∧ d ≤ base * 2 ^ k + jitterBound)) ∧
    ((∀ k, jitter k = 0) →
      (∀ d, (retryWithBackoff base maxDelay jitter op maxAttempts ledger).2.1[0]?
          = some d → base ≤ maxDelay → d = base) ∧
      (∀ d, (retryWithBackoff base maxDelay jitter op maxAttempts ledger).2.1[1]?
          = some d → 2 * base ≤ maxDelay → d = 2 * base)) := by
  obtain ⟨n, h1, h2, h3, h4, h5⟩ :=
    retryAux_spec base maxDelay jitter op maxAttempts 0 ledger []
  have hAll : ∀ k d,
      (retryWithBackoff base maxDelay jitter op maxAttempts ledger).2.1[k]? = some d →
      d = backoffDelay base maxDelay (jitter k) k := by
    intro k d hd
    unfold retryWithBackoff at hd
    rw [h4] at hd
    simp only [List.nil_append, List.getElem?_map] at hd
    rcases Option.map_eq_some.mp hd with ⟨a, ha, hda⟩
    have hk : a = k := by
      by_cases hlt : k < n - 1
      · simp [List.getElem?_range', hlt] at ha
        omega
      · rw [List.getElem?_eq_none (by simpa using hlt)] at ha
        exact absurd ha (by simp)
    rw [← hda, hk]
  have hmaxle : ∀ k, backoffDelay base maxDelay (jitter k) k ≤ maxDelay :=
    fun k => Nat.min_le_right _ _
  constructor
  · intro k d hd
    refine ⟨hAll k d hd, ?_, ?_⟩
    · rw [hAll k d hd]
      exact hmaxle k
    · intro hcap
      have hjk := hj k
      rw [hAll k d hd]
      unfold backoffDelay
      generalize hB : base * 2 ^ k = B at hcap ⊢
      omega
  · intro hz
    constructor
    · intro d hd hcap
      have := hAll 0 d hd
      rw [this]
      unfold backoffDelay
      rw [hz 0]
      simp
      omega
    · intro d hd hcap
      have := hAll 1 d hd
      rw [this]
      unfold backoffDelay
      rw [hz 1]
      simp [pow_one]
      omega

/-- Witness for C5: base 100, cap 1000, zero jitter, two retryable failures
then success — the scheduled delays are 100 and 200. -/
theorem retry_delay_schedule_witness :
    (100 : Nat) = backoffDelay 100 1000 0 0 ∧ (200 : Nat) = backoffDelay 100 1000 0 1 :=
  ⟨((retry_delay_schedule 100 1000 0 (fun _ => 0)
      (fun k => if k < 2 then CallOutcome.retryable "rate limited"
        else CallOutcome.success "ok") 5 [] (fun _ => Nat.le_refl 0)).1
      0 100 rfl).1,
   ((retry_delay_schedule 100 1000 0 (fun _ => 0)
      (fun k => if k < 2 then CallOutcome.retryable "rate limited"
        else CallOutcome.success "ok") 5 [] (fun _ => Nat.le_refl 0)).1
      1 200 rfl).1⟩

/-- C6: every model-call attempt made through the retry wrapper — success
or failure, retries included — appends exactly one entry (recording that
attempt's outcome) to the RecordedCall ledger, in order; existing entries
are never mutated or removed; the final ledger length equals the previous
length plus the number of attempts. -/
theorem recordedCalls_append_only (base maxDelay : Nat) (jitter : Nat → Nat)
    (op : Nat → CallOutcome) (maxAttempts : Nat) (ledger : List RecordedCall) :
    ∃ n, n ≤ maxAttempts ∧ (maxAttempts ≠ 0 → n ≠ 0) ∧
      (retryWithBackoff base maxDelay jitter op maxAttempts ledger).1
        = ledger ++ (List.range n).map (fun j => (op j).record) ∧
      (retryWithBackoff base maxDelay jitter op maxAttempts ledger).1.length
        = ledger.length + n ∧
      (retryWithBackoff base maxDelay jitter op maxAttempts ledger).1.take
          ledger.length = ledger ∧
      (∀ j, j + 1 < n → ∃ e, op j = CallOutcome.retryable e) := by
  obtain ⟨n, h1, h2, h3, h4, h5⟩ :=
    retryAux_spec base maxDelay jitter op maxAttempts 0 ledger []
  have hled : (retryWithBackoff base maxDelay jitter op maxAttempts ledger).1
      = ledger ++ (List.range n).map (fun j => (op j).record) := by
    unfold retryWithBackoff
    rw [List.range_eq_range']
    exact h3
  refine ⟨n, h1, h2, hled, ?_, ?_, ?_⟩
  · rw [hled]
    simp
  · rw [hled]
    exact List.take_left ledger _
  · intro j hjn
    exact h5 j (Nat.zero_le j) (by omega)

/-- Witness for C6: two retryable failures then success within five allowed
attempts. -/
theorem recordedCalls_append_only_witness :
    ∃ n, n ≤ 5 ∧ ((5 : Nat) ≠ 0 → n ≠ 0) ∧
      (retryWithBackoff 100 1000 (fun _ => 0)
          (fun k => if k < 2 then CallOutcome.retryable "rate limited"
            else CallOutcome.success "ok") 5 []).1
        = [] ++ (List.range n).map
            (fun j => ((fun k => if k < 2 then CallOutcome.retryable "rate limited"
              else CallOutcome.success "ok") j).record) ∧
      (retryWithBackoff 100 1000 (fun _ => 0)
          (fun k => if k < 2 then CallOutcome.retryable "rate limited"
            else CallOutcome.success "ok") 5 []).1.length
        = List.length ([] : List RecordedCall) + n ∧
      (retryWithBackoff 100 1000 (fun _ => 0)
          (fun k => if k < 2 then CallOutcome.retryable "rate limited"
            else CallOutcome.success "ok") 5 []).1.take
          (List.length ([] : List RecordedCall)) = [] ∧
      (∀ j, j + 1 < n → ∃ e,
        (if j < 2 then CallOutcome.retryable "rate limited"
          else CallOutcome.success "ok") = CallOutcome.retryable e) :=
  recordedCalls_append_only 100 1000 (fun _ => 0)
    (fun k => if k < 2 then CallOutcome.retryable "rate limited"
      else CallOutcome.success "ok") 5 []

/-- C10: a `NoopStep` constructed without the optional arguments has type
`"noop"` and `isDoneStep () = false`; `isDoneStep ()` always returns exactly
the boolean supplied at construction, and since the flag is a readonly field
never written after construction, that value is constant. -/
theorem noopStep_construct_defaults (sum : String) :
    (NoopStep.construct none sum none).type = "noop" ∧
    (NoopStep.construct none sum none).isDoneStep = false ∧
    (∀ t b, (NoopStep.construct t sum (some b)).isDoneStep = b) ∧
    (∀ s : NoopStep, s.isDoneStep = s.isDoneStepFlag) := by
  refine ⟨rfl, rfl, fun t b => rfl, fun s => rfl⟩

end JsAgent
